import Mathlib

/-!
Verification of the TaxAUmate RAG application (`app.py`).

The file shallowly embeds the pure logic of the application:

* `sanitize_response` — the regex-based cleanup of model output
  (lines 74–84 of `app.py`);
* the merge / deduplicate / cap step of `retrieve_context`
  (lines 102–126);
* the hydration step of `retrieve_context` (lines 128–170);
* the guard, the `try/except` recovery and the service-call sequence of
  `retrieve_context` (lines 90–175), with each external service call
  represented by its outcome (an `Except` value) and a call log;
* the per-turn completion flow of `main` (lines 400–452), with the
  streamed completion represented by its outcome.

Python `float` scores are modelled as `Int` (every claim is about the
order structure of scores only), `\d` of the Python regexes is modelled
as the ASCII digit class, and Python's stable `list.sort` is modelled by
`List.insertionSort`, which is stable and hence extensionally identical
on the sort keys used here.
-/

namespace TaxAUmate

/-! ## Response sanitization (`sanitize_response`, app.py lines 74–84) -/

/-- The backtick character (written via its code point, `U+0060`). -/
def tick : Char := Char.ofNat 96

/-- Test for the backtick character. -/
def isTick (c : Char) : Bool := c == tick

/-- The character class `[,\d]` of the two spacing regexes. -/
def isDigitComma (c : Char) : Bool := c.isDigit || c == ','

/-- The character class `[\(\)]` of the parenthesis-spacing regex. -/
def isParenChar (c : Char) : Bool := c == '(' || c == ')'

/-- Whether a character list starts with three backticks, the `` ``` ``
fence marker of the regex `r'```[\s\S]*?```'`. -/
def isTriple : List Char → Bool
  | c1 :: c2 :: c3 :: _ => isTick c1 && isTick c2 && isTick c3
  | _ => false

/-- Splits a character list at the first occurrence of a triple-backtick
marker: returns the text before the marker and the text after it, or
`none` when no marker occurs.  This is the scanning primitive of the
fence regex `r'```[\s\S]*?```'`: the regex's leftmost match starts at
the first marker, and its non-greedy body ends at the next marker. -/
def splitAtTriple : List Char → Option (List Char × List Char)
  | [] => none
  | c :: rest =>
    if isTriple (c :: rest) then some ([], rest.drop 2)
    else (splitAtTriple rest).map (fun p => (c :: p.1, p.2))

/-- The leftmost match of the fence regex `r'```[\s\S]*?```'`: the text
before the opening marker and the text after the closing marker, or
`none` when the regex does not match.  The regex matches at the first
marker exactly when a second marker follows it: a later opening would
need a closing of its own, which would equally close the first. -/
def findFencePair (l : List Char) : Option (List Char × List Char) :=
  (splitAtTriple l).bind (fun p => (splitAtTriple p.2).map (fun q => (p.1, q.2)))

/-- One fence block (opening marker, shortest body, closing marker) is
removed per step; `fuel` bounds the number of scanning steps and is
always sufficient when it is at least the length of the list, because
every removed block has at least six characters. -/
def removeFencesAux : Nat → List Char → List Char
  | 0, l => l
  | fuel + 1, l =>
    match findFencePair l with
    | none => l
    | some p => p.1 ++ removeFencesAux fuel p.2

/-- `re.sub(r'```[\s\S]*?```', '', text)` of app.py line 77: every
paired triple-backtick fence block — markers and body — is removed. -/
def removeFences (l : List Char) : List Char := removeFencesAux l.length l

/-- `text.replace('`', '')` of app.py line 78. -/
def removeBackticks (l : List Char) : List Char := l.filter (fun c => !(isTick c))

/-- The common shape of the two spacing substitutions of app.py lines
81 and 83: `re.sub(r'([,\d]+)(X)', r'\1 \2', text)` with `X` a
single-character class.  Because the replacement re-emits both groups
verbatim around one space, the substitution inserts a space at every
boundary where a `[,\d]` character is immediately followed by an `X`
character. -/
def insertSpaceBoundary (isSecond : Char → Bool) : List Char → List Char
  | [] => []
  | [c] => [c]
  | c :: d :: rest =>
    if isDigitComma c && isSecond d then
      c :: ' ' :: insertSpaceBoundary isSecond (d :: rest)
    else
      c :: insertSpaceBoundary isSecond (d :: rest)

/-- The whole `sanitize_response` pipeline on character lists. -/
def sanitizeChars (l : List Char) : List Char :=
  insertSpaceBoundary isParenChar
    (insertSpaceBoundary Char.isAlpha
      (removeBackticks (removeFences l)))

/-- `sanitize_response` of app.py lines 74–84. -/
def sanitize_response (s : String) : String := ⟨sanitizeChars s.data⟩

/-- No backtick occurs in the character list. -/
def noTickB (l : List Char) : Bool := l.all (fun c => !(isTick c))

/-- No backtick occurs in the string. -/
def noTickStr (s : String) : Bool := noTickB s.data

/-- No `[,\d]` character is immediately followed by a character
satisfying `isSecond`: the corresponding spacing regex has nothing left
to match. -/
def noAdjB (isSecond : Char → Bool) : List Char → Bool
  | c :: d :: rest => (!(isDigitComma c && isSecond d)) && noAdjB isSecond (d :: rest)
  | _ => true

/-! ## Result merge (`retrieve_context`, app.py lines 102–126) -/

/-- `TOP_K` of app.py line 18. -/
def TOP_K : Nat := 8

/-- The tag written into `match['source_type']` at app.py lines 106 and
110 (`'document'` for the docs index, `'legislation'` for the
legislation index; no other value is ever assigned). -/
inductive SourceType where
  | document
  | legislation
deriving DecidableEq

/-- A Pinecone match as used by the merge: its `id`, its `score`
(modelled as `Int`, see the file comment) and the `source_type` tag
added at app.py lines 106/110. -/
structure MatchRec where
  id : String
  score : Int
  source_type : SourceType
deriving DecidableEq

/-- Tagging loop of app.py lines 104–111: every match of one query
result receives the source tag of its index. -/
def tagMatches (st : SourceType) (l : List (String × Int)) : List MatchRec :=
  l.map (fun p => ⟨p.1, p.2, st⟩)

/-- `combined_matches` after the two tagging loops of app.py lines
103–111: docs matches first, then legislation matches. -/
def combined_matches (docs legis : List (String × Int)) : List MatchRec :=
  tagMatches SourceType.document docs ++ tagMatches SourceType.legislation legis

/-- The comparison of `combined_matches.sort(key=lambda x: x['score'],
reverse=True)` (app.py line 114): `a` may precede `b` when `a`'s score
is at least `b`'s. -/
def scoreGe (a b : MatchRec) : Prop := b.score ≤ a.score

instance : DecidableRel scoreGe :=
  fun a b => inferInstanceAs (Decidable (b.score ≤ a.score))

instance : IsTotal MatchRec scoreGe :=
  ⟨fun a b => le_total b.score a.score⟩

instance : IsTrans MatchRec scoreGe :=
  ⟨fun _ _ _ h1 h2 => le_trans h2 h1⟩

/-- `combined_matches.sort(key=lambda x: x['score'], reverse=True)`
(app.py line 114).  Python's sort is stable; `insertionSort` is a
stable sort, hence extensionally the same function on this key. -/
def sortDesc (l : List MatchRec) : List MatchRec := l.insertionSort scoreGe

/-- The deduplication loop of app.py lines 117–124: walk the sorted
matches, keep the first occurrence of each id, and stop as soon as
`TOP_K` unique ids are collected.  `seen` models the `seen_ids` set and
`n` the current `len(unique_result_ids)`.  The kept entries are
returned as full match records; the code stores only `id` and
`source_type` of each kept record (see `resultIdPairs`). -/
def mergeLoop : List MatchRec → List String → Nat → List MatchRec
  | [], _, _ => []
  | m :: rest, seen, n =>
    if m.id ∈ seen then
      if TOP_K ≤ n then [] else mergeLoop rest seen n
    else
      if TOP_K ≤ n + 1 then [m] else m :: mergeLoop rest (m.id :: seen) (n + 1)

/-- The merge output of `retrieve_context` for two query results: the
surviving match records, in order (app.py lines 102–124). -/
def unique_result_ids (docs legis : List (String × Int)) : List MatchRec :=
  mergeLoop (sortDesc (combined_matches docs legis)) [] 0

/-- The `{'id': ..., 'source_type': ...}` projection actually stored in
`unique_result_ids` by app.py line 121. -/
def resultIdPairs (docs legis : List (String × Int)) : List (String × SourceType) :=
  (unique_result_ids docs legis).map (fun m => (m.id, m.source_type))

/-! ## Hydration (`retrieve_context`, app.py lines 128–170) -/

/-- A MongoDB record as used by hydration: its `_id` and the three
fields read with `doc.get(...)`; an absent field is `none` and the
`.get` default applies. -/
structure StoredDoc where
  docId : String
  title : Option String
  url : Option String
  text : Option String
deriving DecidableEq

/-- An entry of `raw_context_for_display` (app.py lines 164–168). -/
structure DisplayRec where
  title : String
  link_or_id : String
  source_type : String
deriving DecidableEq

/-- `mongo_docs_map = {doc['_id']: doc for doc in mongo_results}`
(app.py line 143): a dict comprehension keeps the last record of each
`_id`, so lookup finds the last matching record. -/
def mongoDocsMap (results : List StoredDoc) (i : String) : Option StoredDoc :=
  results.reverse.find? (fun d => d.docId == i)

/-- The body of the reconstruction loop for one found record (app.py
lines 149–168): the formatted context block and the display entry. -/
def hydrateItem (st : SourceType) (doc : StoredDoc) : String × DisplayRec :=
  let title := doc.title.getD "Untitled"
  let text_snippet := doc.text.getD "No text available"
  let pair :=
    match st with
    | SourceType.document => (doc.url.getD "No URL available", "Document")
    | SourceType.legislation => (doc.title.getD "No Title", "Legislation")
  let url_or_source := pair.1
  let source_display_name := pair.2
  ("---\nSource Type: " ++ source_display_name ++ "\nTitle: " ++ title ++
     "\nLink/ID: " ++ url_or_source ++ "\nText: " ++ text_snippet ++ "\n---\n\n",
   ⟨title, url_or_source, source_display_name⟩)

/-- The reconstruction loop of app.py lines 146–168: re-walk the
ordered id list, look each id up in the map, skip ids with no record
(`if doc:`), and accumulate the formatted context and the display
list in walk order. -/
def hydrateWalk (lookup : String → Option StoredDoc) :
    List (String × SourceType) → String × List DisplayRec
  | [] => ("", [])
  | (i, st) :: rest =>
    let r := hydrateWalk lookup rest
    match lookup i with
    | some doc =>
      let item := hydrateItem st doc
      (item.1 ++ r.1, item.2 :: r.2)
    | none => r

/-- The whole hydration step (app.py lines 128–170) as a function of
the ordered id list and of the two store-returned record lists
(`mongo_results` is their concatenation, docs first, line 136–140). -/
def hydrate (ids : List (String × SourceType)) (docsRet legisRet : List StoredDoc) :
    String × List DisplayRec :=
  hydrateWalk (mongoDocsMap (docsRet ++ legisRet)) ids

/-! ## `retrieve_context` with its guard, `try/except` and call log
(app.py lines 86–175)

Each external call is represented by its outcome: an `Except` value for
the embedding call, the two index queries and the two store lookups.  A
raised exception is an `Except.error`; the surrounding `try/except`
(lines 92 and 172–175) turns any error into the `("", [])` result.  The
function also returns the list of external calls it performed, in
order, so that "service not called" is expressible. -/

/-- One external service call made by `retrieve_context`. -/
inductive ServiceCall where
  | embed
  | queryDocs
  | queryLegis
  | findDocs
  | findLegis
deriving DecidableEq

/-- `retrieve_context` with instrumented call log.  A query result that
is `None` or lacks a `'matches'` key (guards at lines 104 and 108) is
modelled by an empty match list. -/
def retrieveContextT (query : String) (embedRes : Except String Unit)
    (docsRes legisRes : Except String (List (String × Int)))
    (findDocs findLegis : List String → Except String (List StoredDoc)) :
    (String × List DisplayRec) × List ServiceCall :=
  if query = "" then (("", []), [])
  else
    match embedRes with
    | Except.error _ => (("", []), [ServiceCall.embed])
    | Except.ok _ =>
      match docsRes with
      | Except.error _ => (("", []), [ServiceCall.embed, ServiceCall.queryDocs])
      | Except.ok docs =>
        match legisRes with
        | Except.error _ =>
          (("", []), [ServiceCall.embed, ServiceCall.queryDocs, ServiceCall.queryLegis])
        | Except.ok legis =>
          let calls0 := [ServiceCall.embed, ServiceCall.queryDocs, ServiceCall.queryLegis]
          let uids := resultIdPairs docs legis
          if uids.isEmpty then (("", []), calls0)
          else
            let doc_ids_to_fetch := uids.filterMap
              (fun p => if p.2 = SourceType.document then some p.1 else none)
            let legis_ids_to_fetch := uids.filterMap
              (fun p => if p.2 = SourceType.legislation then some p.1 else none)
            let calls1 := calls0 ++
              (if doc_ids_to_fetch.isEmpty then [] else [ServiceCall.findDocs])
            match (if doc_ids_to_fetch.isEmpty then Except.ok ([] : List StoredDoc)
                   else findDocs doc_ids_to_fetch) with
            | Except.error _ => (("", []), calls1)
            | Except.ok docsRet =>
              let calls2 := calls1 ++
                (if legis_ids_to_fetch.isEmpty then [] else [ServiceCall.findLegis])
              match (if legis_ids_to_fetch.isEmpty then Except.ok ([] : List StoredDoc)
                     else findLegis legis_ids_to_fetch) with
              | Except.error _ => (("", []), calls2)
              | Except.ok legisRet => (hydrate uids docsRet legisRet, calls2)

/-- The value returned to `main` by `retrieve_context`. -/
def retrieve_context (query : String) (embedRes : Except String Unit)
    (docsRes legisRes : Except String (List (String × Int)))
    (findDocs findLegis : List String → Except String (List StoredDoc)) :
    String × List DisplayRec :=
  (retrieveContextT query embedRes docsRes legisRes findDocs findLegis).1

/-! ## The completion turn of `main` (app.py lines 400–452) -/

/-- A transcript role. -/
inductive Role where
  | user
  | assistant
deriving DecidableEq

/-- A `st.session_state.messages` entry. -/
structure ChatMessage where
  role : Role
  content : String
deriving DecidableEq

/-- The outcome of the streamed completion call: either the stream runs
to completion, delivering the non-`None` chunk contents in order, or it
raises an exception at some point, after delivering some prefix of
chunks. -/
inductive StreamOutcome where
  | success (chunks : List String)
  | failure (chunksBeforeError : List String)

/-- The fixed apology of app.py line 450. -/
def error_message : String :=
  "I apologize, but I encountered an error. Please try rephrasing your question."

/-- The user message content sent to the completion service
(app.py line 433). -/
def buildApiUserContent (context prompt : String) : String :=
  "CONTEXT:\n" ++ context ++ "\n\nQUESTION:\n" ++ prompt

/-- The observable outcome of one assistant turn. -/
structure TurnResult where
  warningShown : Bool
  apiUserContent : String
  transcript : List ChatMessage

/-- One assistant turn of `main` (app.py lines 400–452), as a function
of the prior transcript, the prompt, the retrieval result and the
completion outcome: the user message is appended (line 401); the
"no relevant documents" warning is shown exactly when the raw context
list is empty (lines 415–429); the completion service is invoked with
the context block (line 433); on success the sanitized accumulated
response is appended (lines 436–446), and on an exception at any point
the fixed apology is appended instead (lines 448–452). -/
def processTurn (messages : List ChatMessage) (prompt : String)
    (retrieved : String × List DisplayRec) (outcome : StreamOutcome) : TurnResult :=
  let afterUser := messages ++ [⟨Role.user, prompt⟩]
  let warning := retrieved.2.isEmpty
  let userContent := buildApiUserContent retrieved.1 prompt
  let final :=
    match outcome with
    | StreamOutcome.success chunks =>
      afterUser ++ [⟨Role.assistant, sanitize_response (String.join chunks)⟩]
    | StreamOutcome.failure _ =>
      afterUser ++ [⟨Role.assistant, error_message⟩]
  ⟨warning, userContent, final⟩

/-! ## Lemmas: the fence-removal pass -/

theorem noTickB_cons {c : Char} {l : List Char} :
    noTickB (c :: l) = true ↔ isTick c = false ∧ noTickB l = true := by
  simp [noTickB]

theorem isTick_of_isTriple {c : Char} {l : List Char} (h : isTriple (c :: l) = true) :
    isTick c = true := by
  match l with
  | [] => simp [isTriple] at h
  | [d] => simp [isTriple] at h
  | d :: e :: rest =>
    simp only [isTriple, Bool.and_eq_true] at h
    exact h.1.1

theorem isTriple_eq_false_of_not_tick {c : Char} {l : List Char} (h : isTick c = false) :
    isTriple (c :: l) = false := by
  cases ht : isTriple (c :: l)
  · rfl
  · rw [isTick_of_isTriple ht] at h
    exact absurd h (by simp)

theorem splitAtTriple_cons_triple {c : Char} {l : List Char}
    (h : isTriple (c :: l) = true) :
    splitAtTriple (c :: l) = some ([], l.drop 2) := by
  simp [splitAtTriple, h]

theorem splitAtTriple_cons_not_triple {c : Char} {l : List Char}
    (h : isTriple (c :: l) = false) :
    splitAtTriple (c :: l) = (splitAtTriple l).map (fun p => (c :: p.1, p.2)) := by
  simp [splitAtTriple, h]

theorem splitAtTriple_length :
    ∀ {l a b : List Char}, splitAtTriple l = some (a, b) →
      a.length + 3 + b.length = l.length := by
  intro l
  induction l with
  | nil => intro a b h; simp [splitAtTriple] at h
  | cons c rest ih =>
    intro a b h
    by_cases hc : isTriple (c :: rest) = true
    · rw [splitAtTriple_cons_triple hc] at h
      simp only [Option.some.injEq, Prod.mk.injEq] at h
      obtain ⟨rfl, rfl⟩ := h
      rcases rest with _ | ⟨d, _ | ⟨e, rest'⟩⟩
      · simp [isTriple] at hc
      · simp [isTriple] at hc
      · have hd : List.drop 2 (d :: e :: rest') = rest' := rfl
        rw [hd]
        simp only [List.length_nil, List.length_cons]
        omega
    · rw [splitAtTriple_cons_not_triple (by simpa using hc)] at h
      cases hr : splitAtTriple rest with
      | none => rw [hr] at h; simp at h
      | some p =>
        obtain ⟨x, y⟩ := p
        rw [hr] at h
        simp only [Option.map_some', Option.some.injEq, Prod.mk.injEq] at h
        obtain ⟨rfl, rfl⟩ := h
        have := ih hr
        simp only [List.length_cons]
        omega

theorem splitAtTriple_of_noTick :
    ∀ {l : List Char}, noTickB l = true → splitAtTriple l = none := by
  intro l
  induction l with
  | nil => intro _; rfl
  | cons c rest ih =>
    intro h
    obtain ⟨h1, h2⟩ := noTickB_cons.mp h
    rw [splitAtTriple_cons_not_triple (isTriple_eq_false_of_not_tick h1), ih h2]
    rfl

theorem findFencePair_of_noTick {l : List Char} (h : noTickB l = true) :
    findFencePair l = none := by
  simp [findFencePair, splitAtTriple_of_noTick h]

theorem findFencePair_length {l a c : List Char} (h : findFencePair l = some (a, c)) :
    a.length + c.length + 6 ≤ l.length := by
  unfold findFencePair at h
  cases hs : splitAtTriple l with
  | none => rw [hs] at h; simp at h
  | some p =>
    obtain ⟨x, b⟩ := p
    rw [hs] at h
    simp only [Option.some_bind] at h
    cases hb : splitAtTriple b with
    | none => rw [hb] at h; simp at h
    | some q =>
      obtain ⟨y, z⟩ := q
      rw [hb] at h
      simp only [Option.map_some', Option.some.injEq, Prod.mk.injEq] at h
      obtain ⟨rfl, rfl⟩ := h
      have l1 := splitAtTriple_length hs
      have l2 := splitAtTriple_length hb
      omega

theorem removeFencesAux_of_none {fuel : Nat} {l : List Char}
    (h : findFencePair l = none) : removeFencesAux fuel l = l := by
  cases fuel with
  | zero => rfl
  | succ n => simp [removeFencesAux, h]

theorem removeFencesAux_congr :
    ∀ f1 f2 : Nat, ∀ l : List Char, l.length ≤ f1 → l.length ≤ f2 →
      removeFencesAux f1 l = removeFencesAux f2 l := by
  intro f1
  induction f1 with
  | zero =>
    intro f2 l h1 _
    have hl : l = [] := List.eq_nil_of_length_eq_zero (Nat.le_zero.mp h1)
    subst hl
    rw [removeFencesAux_of_none (show findFencePair [] = none from rfl),
      removeFencesAux_of_none (show findFencePair [] = none from rfl)]
  | succ n ih =>
    intro f2 l h1 h2
    cases f2 with
    | zero =>
      have hl : l = [] := List.eq_nil_of_length_eq_zero (Nat.le_zero.mp h2)
      subst hl
      rw [removeFencesAux_of_none (show findFencePair [] = none from rfl),
        removeFencesAux_of_none (show findFencePair [] = none from rfl)]
    | succ m =>
      simp only [removeFencesAux]
      cases hf : findFencePair l with
      | none => rfl
      | some p =>
        have hlen := findFencePair_length (l := l) (a := p.1) (c := p.2) (by rw [hf])
        show p.1 ++ removeFencesAux n p.2 = p.1 ++ removeFencesAux m p.2
        rw [ih m p.2 (by omega) (by omega)]

theorem removeFences_eq (l : List Char) :
    removeFences l =
      match findFencePair l with
      | none => l
      | some p => p.1 ++ removeFences p.2 := by
  cases hf : findFencePair l with
  | none => simp only [removeFences, removeFencesAux_of_none hf]
  | some p =>
    have hlen := findFencePair_length (l := l) (a := p.1) (c := p.2) (by rw [hf])
    have hl : ∃ n, l.length = n + 1 := by
      cases l with
      | nil => simp at hlen
      | cons x xs => exact ⟨xs.length, rfl⟩
    obtain ⟨n, hn⟩ := hl
    simp only [removeFences, hn, removeFencesAux, hf]
    rw [removeFencesAux_congr n p.2.length p.2 (by omega) (by omega)]

theorem removeFences_of_noTick {l : List Char} (h : noTickB l = true) :
    removeFences l = l := by
  rw [removeFences_eq, findFencePair_of_noTick h]

theorem splitAtTriple_append_noTick :
    ∀ {pre : List Char}, ∀ post : List Char, noTickB pre = true →
      splitAtTriple (pre ++ post) =
        (splitAtTriple post).map (fun p => (pre ++ p.1, p.2)) := by
  intro pre
  induction pre with
  | nil =>
    intro post _
    simp only [List.nil_append]
    cases splitAtTriple post with
    | none => rfl
    | some p => simp
  | cons c pre' ih =>
    intro post h
    obtain ⟨h1, h2⟩ := noTickB_cons.mp h
    rw [List.cons_append,
      splitAtTriple_cons_not_triple (isTriple_eq_false_of_not_tick h1), ih post h2]
    cases splitAtTriple post with
    | none => rfl
    | some p => simp

theorem findFencePair_append_noTick {pre : List Char} (post : List Char)
    (h : noTickB pre = true) :
    findFencePair (pre ++ post) =
      (findFencePair post).map (fun p => (pre ++ p.1, p.2)) := by
  unfold findFencePair
  rw [splitAtTriple_append_noTick post h]
  cases splitAtTriple post with
  | none => rfl
  | some p =>
    simp only [Option.map_some', Option.some_bind]
    cases splitAtTriple p.2 with
    | none => rfl
    | some q => rfl

theorem removeFences_append_noTick :
    ∀ {pre post : List Char}, noTickB pre = true →
      removeFences (pre ++ post) = pre ++ removeFences post := by
  intro pre post h
  rw [removeFences_eq (pre ++ post), removeFences_eq post,
    findFencePair_append_noTick post h]
  cases hf : findFencePair post with
  | none => rfl
  | some p =>
    simp only [Option.map_some']
    show pre ++ p.1 ++ removeFences p.2 = pre ++ (p.1 ++ removeFences p.2)
    rw [List.append_assoc]

theorem splitAtTriple_fence :
    ∀ {mid : List Char}, ∀ post : List Char, noTickB mid = true →
      splitAtTriple (mid ++ tick :: tick :: tick :: post) = some (mid, post) := by
  intro mid
  induction mid with
  | nil =>
    intro post _
    have ht : isTriple (tick :: tick :: tick :: post) = true := by
      simp [isTriple, isTick]
    rw [List.nil_append, splitAtTriple_cons_triple ht]
    rfl
  | cons c mid' ih =>
    intro post h
    obtain ⟨h1, h2⟩ := noTickB_cons.mp h
    rw [List.cons_append,
      splitAtTriple_cons_not_triple (isTriple_eq_false_of_not_tick h1), ih post h2]
    rfl

theorem removeFences_fenced {pre mid : List Char} (post : List Char)
    (h1 : noTickB pre = true) (h2 : noTickB mid = true) :
    removeFences (pre ++ tick :: tick :: tick :: (mid ++ tick :: tick :: tick :: post)) =
      pre ++ removeFences post := by
  have hopen : splitAtTriple (tick :: tick :: tick :: (mid ++ tick :: tick :: tick :: post)) =
      some ([], mid ++ tick :: tick :: tick :: post) := by
    have ht : isTriple (tick :: tick :: tick :: (mid ++ tick :: tick :: tick :: post)) = true := by
      simp [isTriple, isTick]
    rw [splitAtTriple_cons_triple ht]
    rfl
  have hpair : findFencePair (tick :: tick :: tick :: (mid ++ tick :: tick :: tick :: post)) =
      some ([], post) := by
    unfold findFencePair
    rw [hopen]
    simp only [Option.some_bind]
    rw [splitAtTriple_fence post h2]
    rfl
  rw [removeFences_eq, findFencePair_append_noTick _ h1, hpair]
  simp

/-! ## Lemmas: the backtick pass and the two spacing passes -/

theorem noTickB_removeBackticks (l : List Char) : noTickB (removeBackticks l) = true := by
  simp only [noTickB, removeBackticks, List.all_eq_true]
  intro c hc
  exact (List.mem_filter.mp hc).2

theorem removeBackticks_of_noTick {l : List Char} (h : noTickB l = true) :
    removeBackticks l = l := by
  simp only [noTickB, List.all_eq_true] at h
  exact List.filter_eq_self.mpr h

theorem insertSpaceBoundary_cons (q : Char → Bool) (c : Char) (l : List Char) :
    ∃ t, insertSpaceBoundary q (c :: l) = c :: t := by
  cases l with
  | nil => exact ⟨[], rfl⟩
  | cons d rest =>
    by_cases h : (isDigitComma c && q d) = true
    · exact ⟨' ' :: insertSpaceBoundary q (d :: rest), by simp [insertSpaceBoundary, h]⟩
    · exact ⟨insertSpaceBoundary q (d :: rest), by simp [insertSpaceBoundary, h]⟩

theorem noAdjB_insertSpaceBoundary (q : Char → Bool) (hq : q ' ' = false) :
    ∀ l, noAdjB q (insertSpaceBoundary q l) = true := by
  intro l
  induction l with
  | nil => rfl
  | cons c rest ih =>
    cases rest with
    | nil => rfl
    | cons d rest' =>
      obtain ⟨t, ht⟩ := insertSpaceBoundary_cons q d rest'
      by_cases h : (isDigitComma c && q d) = true
      · rw [show insertSpaceBoundary q (c :: d :: rest') =
             c :: ' ' :: insertSpaceBoundary q (d :: rest') by simp [insertSpaceBoundary, h]]
        rw [ht]
        rw [ht] at ih
        simp only [noAdjB, Bool.and_eq_true] at ih ⊢
        refine ⟨by simp [hq], ⟨by simp [isDigitComma], ih⟩⟩
      · rw [show insertSpaceBoundary q (c :: d :: rest') =
             c :: insertSpaceBoundary q (d :: rest') by simp [insertSpaceBoundary, h]]
        rw [ht]
        rw [ht] at ih
        have hcond : (isDigitComma c && q d) = false := by
          cases hcd : (isDigitComma c && q d)
          · rfl
          · exact absurd hcd h
        simp only [noAdjB, Bool.and_eq_true] at ih ⊢
        exact ⟨by simp [hcond], ih⟩

theorem insertSpaceBoundary_of_noAdj (q : Char → Bool) :
    ∀ l, noAdjB q l = true → insertSpaceBoundary q l = l := by
  intro l
  induction l with
  | nil => intro _; rfl
  | cons c rest ih =>
    intro h
    cases rest with
    | nil => rfl
    | cons d rest' =>
      simp only [noAdjB, Bool.and_eq_true] at h
      obtain ⟨h1, h2⟩ := h
      have hcond : (isDigitComma c && q d) = false := by
        cases hcd : (isDigitComma c && q d)
        · rfl
        · rw [hcd] at h1; simp at h1
      rw [show insertSpaceBoundary q (c :: d :: rest') =
           c :: insertSpaceBoundary q (d :: rest') by simp [insertSpaceBoundary, hcond]]
      rw [ih h2]

theorem noAdjB_insertSpaceBoundary_preserve (p q : Char → Bool) (hp : p ' ' = false) :
    ∀ l, noAdjB p l = true → noAdjB p (insertSpaceBoundary q l) = true := by
  intro l
  induction l with
  | nil => intro _; rfl
  | cons c rest ih =>
    intro h
    cases rest with
    | nil => rfl
    | cons d rest' =>
      simp only [noAdjB, Bool.and_eq_true] at h
      obtain ⟨h1, h2⟩ := h
      obtain ⟨t, ht⟩ := insertSpaceBoundary_cons q d rest'
      have ihr := ih h2
      rw [ht] at ihr
      by_cases hcond : (isDigitComma c && q d) = true
      · rw [show insertSpaceBoundary q (c :: d :: rest') =
             c :: ' ' :: insertSpaceBoundary q (d :: rest') by simp [insertSpaceBoundary, hcond]]
        rw [ht]
        simp only [noAdjB, Bool.and_eq_true] at ihr ⊢
        exact ⟨by simp [hp], ⟨by simp [isDigitComma], ihr⟩⟩
      · rw [show insertSpaceBoundary q (c :: d :: rest') =
             c :: insertSpaceBoundary q (d :: rest') by simp [insertSpaceBoundary, hcond]]
        rw [ht]
        simp only [noAdjB, Bool.and_eq_true] at ihr ⊢
        exact ⟨h1, ihr⟩

theorem noTickB_insertSpaceBoundary (q : Char → Bool) :
    ∀ l, noTickB l = true → noTickB (insertSpaceBoundary q l) = true := by
  intro l
  induction l with
  | nil => intro _; rfl
  | cons c rest ih =>
    intro h
    obtain ⟨h1, h2⟩ := noTickB_cons.mp h
    cases rest with
    | nil => exact h
    | cons d rest' =>
      have ihr := ih h2
      by_cases hcond : (isDigitComma c && q d) = true
      · rw [show insertSpaceBoundary q (c :: d :: rest') =
             c :: ' ' :: insertSpaceBoundary q (d :: rest') by simp [insertSpaceBoundary, hcond]]
        refine noTickB_cons.mpr ⟨h1, noTickB_cons.mpr ⟨by simp [isTick, tick], ihr⟩⟩
      · rw [show insertSpaceBoundary q (c :: d :: rest') =
             c :: insertSpaceBoundary q (d :: rest') by simp [insertSpaceBoundary, hcond]]
        exact noTickB_cons.mpr ⟨h1, ihr⟩

/-- A sanitized text contains no backtick, no `[,\d]` character directly
followed by an ASCII letter, and no `[,\d]` character directly followed
by a parenthesis; consequently every pass of `sanitizeChars` leaves it
unchanged. -/
theorem sanitizeChars_fixed (l : List Char) :
    noTickB (sanitizeChars l) = true ∧
    noAdjB Char.isAlpha (sanitizeChars l) = true ∧
    noAdjB isParenChar (sanitizeChars l) = true := by
  refine ⟨?_, ?_, ?_⟩
  · exact noTickB_insertSpaceBoundary _ _
      (noTickB_insertSpaceBoundary _ _ (noTickB_removeBackticks _))
  · exact noAdjB_insertSpaceBoundary_preserve Char.isAlpha isParenChar (by decide) _
      (noAdjB_insertSpaceBoundary Char.isAlpha (by decide) _)
  · exact noAdjB_insertSpaceBoundary isParenChar (by decide) _

theorem sanitizeChars_idem (l : List Char) :
    sanitizeChars (sanitizeChars l) = sanitizeChars l := by
  obtain ⟨h1, h2, h3⟩ := sanitizeChars_fixed l
  show insertSpaceBoundary isParenChar
      (insertSpaceBoundary Char.isAlpha
        (removeBackticks (removeFences (sanitizeChars l)))) = sanitizeChars l
  rw [removeFences_of_noTick h1, removeBackticks_of_noTick h1,
    insertSpaceBoundary_of_noAdj Char.isAlpha _ h2,
    insertSpaceBoundary_of_noAdj isParenChar _ h3]

/-! ## Lemmas: the merge step -/

theorem mergeLoop_sublist : ∀ (l : List MatchRec) (seen : List String) (n : Nat),
    (mergeLoop l seen n).Sublist l := by
  intro l
  induction l with
  | nil => intro seen n; exact List.Sublist.refl []
  | cons m rest ih =>
    intro seen n
    simp only [mergeLoop]
    by_cases h1 : m.id ∈ seen
    · rw [if_pos h1]
      by_cases h2 : TOP_K ≤ n
      · rw [if_pos h2]; exact List.nil_sublist _
      · rw [if_neg h2]; exact (ih seen n).cons m
    · rw [if_neg h1]
      by_cases h2 : TOP_K ≤ n + 1
      · rw [if_pos h2]; exact (List.nil_sublist rest).cons₂ m
      · rw [if_neg h2]; exact (ih (m.id :: seen) (n + 1)).cons₂ m

theorem mergeLoop_nodup : ∀ (l : List MatchRec) (seen : List String) (n : Nat),
    ((mergeLoop l seen n).map (fun m => m.id)).Nodup ∧
      ∀ m ∈ mergeLoop l seen n, m.id ∉ seen := by
  intro l
  induction l with
  | nil => intro seen n; simp [mergeLoop]
  | cons m rest ih =>
    intro seen n
    simp only [mergeLoop]
    by_cases h1 : m.id ∈ seen
    · rw [if_pos h1]
      by_cases h2 : TOP_K ≤ n
      · rw [if_pos h2]; simp
      · rw [if_neg h2]; exact ih seen n
    · rw [if_neg h1]
      by_cases h2 : TOP_K ≤ n + 1
      · rw [if_pos h2]
        refine ⟨by simp, ?_⟩
        intro x hx
        have hx' : x = m := by simpa using hx
        rw [hx']
        exact h1
      · rw [if_neg h2]
        obtain ⟨ihn, ihs⟩ := ih (m.id :: seen) (n + 1)
        refine ⟨?_, ?_⟩
        · simp only [List.map_cons, List.nodup_cons]
          refine ⟨?_, ihn⟩
          intro hmem
          obtain ⟨y, hy, hyid⟩ := List.mem_map.mp hmem
          exact ihs y hy (hyid ▸ List.mem_cons_self _ _)
        · intro x hx
          rcases List.mem_cons.mp hx with rfl | hx'
          · exact h1
          · exact fun hs => ihs x hx' (List.mem_cons_of_mem _ hs)

theorem mergeLoop_length : ∀ (l : List MatchRec) (seen : List String) (n : Nat),
    n < TOP_K → (mergeLoop l seen n).length + n ≤ TOP_K := by
  intro l
  induction l with
  | nil =>
    intro seen n h
    simp only [mergeLoop, List.length_nil]
    omega
  | cons m rest ih =>
    intro seen n h
    simp only [mergeLoop]
    by_cases h1 : m.id ∈ seen
    · rw [if_pos h1]
      by_cases h2 : TOP_K ≤ n
      · rw [if_pos h2]; simp only [List.length_nil]; omega
      · rw [if_neg h2]; exact ih seen n h
    · rw [if_neg h1]
      by_cases h2 : TOP_K ≤ n + 1
      · rw [if_pos h2]
        simp only [List.length_cons, List.length_nil]
        omega
      · rw [if_neg h2]
        have := ih (m.id :: seen) (n + 1) (by omega)
        simp only [List.length_cons]
        omega

theorem mergeLoop_find : ∀ (l : List MatchRec) (seen : List String) (n : Nat),
    ∀ m ∈ mergeLoop l seen n,
      m.id ∉ seen ∧ l.find? (fun a => a.id == m.id) = some m := by
  intro l
  induction l with
  | nil => intro seen n m hm; simp [mergeLoop] at hm
  | cons x rest ih =>
    intro seen n m hm
    simp only [mergeLoop] at hm
    by_cases h1 : x.id ∈ seen
    · rw [if_pos h1] at hm
      by_cases h2 : TOP_K ≤ n
      · rw [if_pos h2] at hm; simp at hm
      · rw [if_neg h2] at hm
        obtain ⟨hns, hfind⟩ := ih seen n m hm
        refine ⟨hns, ?_⟩
        rw [List.find?_cons_of_neg, hfind]
        intro heq
        exact hns ((beq_iff_eq.mp heq) ▸ h1)
    · rw [if_neg h1] at hm
      by_cases h2 : TOP_K ≤ n + 1
      · rw [if_pos h2] at hm
        have hm' : m = x := by simpa using hm
        subst hm'
        exact ⟨h1, by rw [List.find?_cons_of_pos _ (by simp)]⟩
      · rw [if_neg h2] at hm
        rcases List.mem_cons.mp hm with rfl | hm'
        · exact ⟨h1, by rw [List.find?_cons_of_pos _ (by simp)]⟩
        · obtain ⟨hns, hfind⟩ := ih (x.id :: seen) (n + 1) m hm'
          refine ⟨fun hs => hns (List.mem_cons_of_mem _ hs), ?_⟩
          rw [List.find?_cons_of_neg, hfind]
          intro heq
          exact hns ((beq_iff_eq.mp heq) ▸ List.mem_cons_self _ _)

theorem mergeLoop_complete : ∀ (l : List MatchRec) (seen : List String) (n : Nat),
    n + ((l.map (fun m => m.id)).toFinset \ seen.toFinset).card ≤ TOP_K →
    ∀ x ∈ l.map (fun m => m.id),
      x ∈ seen ∨ x ∈ (mergeLoop l seen n).map (fun m => m.id) := by
  intro l
  induction l with
  | nil => intro seen n _ x hx; simp at hx
  | cons m rest ih =>
    intro seen n h x hx
    simp only [List.map_cons, List.toFinset_cons] at h
    simp only [List.map_cons, List.mem_cons] at hx
    simp only [mergeLoop]
    by_cases h1 : m.id ∈ seen
    · rw [if_pos h1]
      rw [Finset.insert_sdiff_of_mem _ (List.mem_toFinset.mpr h1)] at h
      by_cases h2 : TOP_K ≤ n
      · rw [if_pos h2]
        left
        rcases hx with rfl | hx'
        · exact h1
        · by_contra hxs
          have hxin : x ∈ (rest.map (fun m => m.id)).toFinset \ seen.toFinset :=
            Finset.mem_sdiff.mpr
              ⟨List.mem_toFinset.mpr hx', fun hc => hxs (List.mem_toFinset.mp hc)⟩
          have hpos := Finset.card_pos.mpr ⟨x, hxin⟩
          omega
      · rw [if_neg h2]
        rcases hx with rfl | hx'
        · left; exact h1
        · exact ih seen n h x hx'
    · rw [if_neg h1]
      have hcard : (insert m.id (rest.map (fun m => m.id)).toFinset \ seen.toFinset).card
          = ((rest.map (fun m => m.id)).toFinset \ insert m.id seen.toFinset).card + 1 := by
        have hset : insert m.id (rest.map (fun m => m.id)).toFinset \ seen.toFinset
            = insert m.id
                ((rest.map (fun m => m.id)).toFinset \ insert m.id seen.toFinset) := by
          ext y
          simp only [Finset.mem_sdiff, Finset.mem_insert]
          constructor
          · rintro ⟨hy1 | hy1, hy2⟩
            · exact Or.inl hy1
            · by_cases hym : y = m.id
              · exact Or.inl hym
              · exact Or.inr ⟨hy1, fun hc => hc.elim hym hy2⟩
          · rintro (rfl | ⟨hy1, hy2⟩)
            · refine ⟨Or.inl rfl, ?_⟩
              simpa using h1
            · exact ⟨Or.inr hy1, fun hc => hy2 (Or.inr hc)⟩
        rw [hset, Finset.card_insert_of_not_mem]
        intro hc
        exact (Finset.mem_sdiff.mp hc).2 (Finset.mem_insert_self _ _)
      rw [hcard] at h
      by_cases h2 : TOP_K ≤ n + 1
      · rw [if_pos h2]
        by_cases hxm : x = m.id
        · right; simp [hxm]
        · left
          rcases hx with rfl | hx'
          · exact absurd rfl hxm
          · by_contra hxs
            have hxin : x ∈ (rest.map (fun m => m.id)).toFinset \ insert m.id seen.toFinset :=
              Finset.mem_sdiff.mpr
                ⟨List.mem_toFinset.mpr hx', by
                  simp only [Finset.mem_insert, List.mem_toFinset]
                  rintro (rfl | hc)
                  · exact hxm rfl
                  · exact hxs hc⟩
            have hpos := Finset.card_pos.mpr ⟨x, hxin⟩
            omega
      · rw [if_neg h2]
        have hrec := ih (m.id :: seen) (n + 1) (by
          rw [List.toFinset_cons]
          omega)
        rcases hx with rfl | hx'
        · right; simp
        · rcases hrec x hx' with hin | hout
          · rcases List.mem_cons.mp hin with rfl | hs
            · right; simp
            · left; exact hs
          · right
            simp only [List.map_cons, List.mem_cons]
            exact Or.inr hout

theorem sortDesc_sorted (l : List MatchRec) : List.Sorted scoreGe (sortDesc l) :=
  List.sorted_insertionSort scoreGe l

theorem sortDesc_perm (l : List MatchRec) : List.Perm (sortDesc l) l :=
  List.perm_insertionSort scoreGe l

/-! ## Lemmas: the hydration step -/

theorem mongoDocsMap_eq_some_iff {l : List StoredDoc} {i : String} {d : StoredDoc}
    (hn : (l.map (fun d => d.docId)).Nodup) :
    mongoDocsMap l i = some d ↔ d ∈ l ∧ d.docId = i := by
  constructor
  · intro h
    have hmem := List.mem_of_find?_eq_some h
    have hpred := List.find?_some h
    exact ⟨List.mem_reverse.mp hmem, beq_iff_eq.mp hpred⟩
  · rintro ⟨hmem, hid⟩
    cases hf : mongoDocsMap l i with
    | none =>
      simp only [mongoDocsMap, List.find?_eq_none] at hf
      have := hf d (List.mem_reverse.mpr hmem)
      simp [hid] at this
    | some d' =>
      have hmem' := List.mem_reverse.mp (List.mem_of_find?_eq_some hf)
      have hid' : d'.docId = i := by
        have h2 := List.find?_some (p := fun d : StoredDoc => d.docId == i)
          (show List.find? (fun d : StoredDoc => d.docId == i) l.reverse = some d' from hf)
        simpa using h2
      have hdd : d' = d :=
        List.inj_on_of_nodup_map hn hmem' hmem (by rw [hid', hid])
      rw [hdd]

theorem mongoDocsMap_perm {l l' : List StoredDoc}
    (hp : List.Perm l l') (hn : (l.map (fun d => d.docId)).Nodup) (i : String) :
    mongoDocsMap l i = mongoDocsMap l' i := by
  have hn' : (l'.map (fun d => d.docId)).Nodup := ((hp.map _).nodup_iff).mp hn
  cases hf : mongoDocsMap l' i with
  | none =>
    simp only [mongoDocsMap, List.find?_eq_none] at hf ⊢
    intro x hx
    exact hf x (List.mem_reverse.mpr (hp.mem_iff.mp (List.mem_reverse.mp hx)))
  | some d =>
    have hd := (mongoDocsMap_eq_some_iff hn').mp hf
    exact (mongoDocsMap_eq_some_iff hn).mpr ⟨hp.mem_iff.mpr hd.1, hd.2⟩

theorem hydrateWalk_congr {f g : String → Option StoredDoc}
    (h : ∀ i, f i = g i) : ∀ ids, hydrateWalk f ids = hydrateWalk g ids := by
  intro ids
  induction ids with
  | nil => rfl
  | cons p rest ih =>
    obtain ⟨i, st⟩ := p
    simp only [hydrateWalk, ih, h i]

theorem hydrateWalk_filterMap (f : String → Option StoredDoc) :
    ∀ ids, (hydrateWalk f ids).2 =
      ids.filterMap (fun p => (f p.1).map (fun d => (hydrateItem p.2 d).2)) := by
  intro ids
  induction ids with
  | nil => rfl
  | cons p rest ih =>
    obtain ⟨i, st⟩ := p
    simp only [hydrateWalk, List.filterMap_cons]
    cases hf : f i with
    | none => simpa using ih
    | some d => simpa using ih

theorem hydrate_perm {docsRet legisRet docsRet' legisRet' : List StoredDoc}
    (hd : List.Perm docsRet' docsRet) (hl : List.Perm legisRet' legisRet)
    (hn : ((docsRet ++ legisRet).map (fun d => d.docId)).Nodup)
    (ids : List (String × SourceType)) :
    hydrate ids docsRet' legisRet' = hydrate ids docsRet legisRet := by
  unfold hydrate
  have hperm : List.Perm (docsRet' ++ legisRet') (docsRet ++ legisRet) := hd.append hl
  have hn' : ((docsRet' ++ legisRet').map (fun d => d.docId)).Nodup :=
    ((hperm.map _).nodup_iff).mpr hn
  exact hydrateWalk_congr (fun i => mongoDocsMap_perm hperm hn' i) ids

/-! ## Lemmas: `retrieve_context` sub-results -/

theorem filterMap_source_nonempty (l : List (String × SourceType)) (h : l ≠ []) :
    (l.filterMap (fun p => if p.2 = SourceType.document then some p.1 else none)) ≠ [] ∨
    (l.filterMap (fun p => if p.2 = SourceType.legislation then some p.1 else none)) ≠ [] := by
  cases l with
  | nil => exact absurd rfl h
  | cons p rest =>
    cases hst : p.2 with
    | document => left; simp [List.filterMap_cons, hst]
    | legislation => right; simp [List.filterMap_cons, hst]

theorem combined_matches_map_id (docs legis : List (String × Int)) :
    (combined_matches docs legis).map (fun m => m.id) =
      docs.map Prod.fst ++ legis.map Prod.fst := by
  simp only [combined_matches, tagMatches, List.map_append, List.map_map]
  rfl

/-! ## The claims -/

/-- Claim C1: for any two ranked input match lists, the merge step of
`retrieve_context` returns a candidate list in which each id occurs at
most once, that is sorted by non-increasing score, and whose length is
at most `K = 8` overall — 8 across the union of both sources. -/
theorem C1_merge_unique_sorted_capped (docs legis : List (String × Int)) :
    ((unique_result_ids docs legis).map (fun m => m.id)).Nodup ∧
    List.Sorted (· ≥ ·) ((unique_result_ids docs legis).map (fun m => m.score)) ∧
    (unique_result_ids docs legis).length ≤ 8 := by
  refine ⟨(mergeLoop_nodup _ [] 0).1, ?_, ?_⟩
  · have hs : List.Sorted scoreGe (sortDesc (combined_matches docs legis)) :=
      sortDesc_sorted _
    have hsub := mergeLoop_sublist (sortDesc (combined_matches docs legis)) [] 0
    have hp : List.Pairwise scoreGe (unique_result_ids docs legis) :=
      List.Pairwise.sublist hsub hs
    exact List.pairwise_map.mpr hp
  · have h := mergeLoop_length (sortDesc (combined_matches docs legis)) [] 0 (by decide)
    simpa [TOP_K] using h

/-- Claim C2 counterexample: the id `"X"` occurs in both input lists,
yet the merge output of `retrieve_context` does not contain `"X"` at
all — eight other unique ids precede both of its occurrences in the
score-descending order, so the `TOP_K` cap stops the scan before `"X"`
is reached.  The claim's "exactly once" therefore fails. -/
theorem C2_counterexample :
    "X" ∈ ([("A1", 16), ("A2", 15), ("A3", 14), ("A4", 13), ("A5", 12), ("A6", 11),
        ("A7", 10), ("X", 2)] : List (String × Int)).map Prod.fst ∧
    "X" ∈ ([("B1", 9), ("X", 1)] : List (String × Int)).map Prod.fst ∧
    ((unique_result_ids
        [("A1", 16), ("A2", 15), ("A3", 14), ("A4", 13), ("A5", 12), ("A6", 11),
         ("A7", 10), ("X", 2)]
        [("B1", 9), ("X", 1)]).map (fun m => m.id)).count "X" = 0 := by
  decide

/-- Claim C2 (amended): for every id present in both input lists, the
merge output contains that id at most once, and any surviving entry is
literally the occurrence that comes first in the score-descending
sorted order — hence carries that occurrence's score and source-type
tag, the higher-scored occurrence; moreover the id survives exactly
once whenever the combined inputs hold at most `K = 8` distinct ids
(the counterexample shows the cap can otherwise exclude it
entirely). -/
theorem C2_amended (docs legis : List (String × Int)) (x : String)
    (hdocs : x ∈ docs.map Prod.fst) (_hlegis : x ∈ legis.map Prod.fst) :
    ((unique_result_ids docs legis).map (fun m => m.id)).count x ≤ 1 ∧
    (∀ m ∈ unique_result_ids docs legis, m.id = x →
      (sortDesc (combined_matches docs legis)).find? (fun a => a.id == x) = some m) ∧
    (((combined_matches docs legis).map (fun m => m.id)).toFinset.card ≤ TOP_K →
      ((unique_result_ids docs legis).map (fun m => m.id)).count x = 1) := by
  refine ⟨?_, ?_, ?_⟩
  · exact List.nodup_iff_count_le_one.mp (mergeLoop_nodup _ [] 0).1 x
  · intro m hm hid
    have h := (mergeLoop_find (sortDesc (combined_matches docs legis)) [] 0 m hm).2
    rw [hid] at h
    exact h
  · intro hcap
    have hxc : x ∈ (combined_matches docs legis).map (fun m => m.id) := by
      rw [combined_matches_map_id]
      exact List.mem_append.mpr (Or.inl hdocs)
    have hpermid : List.Perm ((sortDesc (combined_matches docs legis)).map (fun m => m.id))
        ((combined_matches docs legis).map (fun m => m.id)) :=
      (sortDesc_perm _).map _
    have hxs : x ∈ (sortDesc (combined_matches docs legis)).map (fun m => m.id) :=
      hpermid.mem_iff.mpr hxc
    have hcap' : (0 : Nat) +
        (((sortDesc (combined_matches docs legis)).map (fun m => m.id)).toFinset \
          ([] : List String).toFinset).card ≤ TOP_K := by
      rw [List.toFinset_eq_of_perm _ _ hpermid]
      simpa using hcap
    have hmem := mergeLoop_complete (sortDesc (combined_matches docs legis)) [] 0 hcap' x hxs
    have hout : x ∈ (unique_result_ids docs legis).map (fun m => m.id) := by
      rcases hmem with hin | hout
      · simp at hin
      · exact hout
    exact List.count_eq_one_of_mem (mergeLoop_nodup _ [] 0).1 hout

/-- Claim C2 witness: in the spec's own scenario — `"X"` in both lists
with scores 9 and 7, plus unique `"Y"` (8) and `"Z"` (6), three
distinct ids in all — `"X"` survives exactly once. -/
theorem C2_witness :
    ((unique_result_ids [("X", 9), ("Y", 8)] [("X", 7), ("Z", 6)]).map
      (fun m => m.id)).count "X" = 1 :=
  (C2_amended [("X", 9), ("Y", 8)] [("X", 7), ("Z", 6)] "X"
    (by decide) (by decide)).2.2 (by decide)

/-- Claim C3: the hydration step emits hydrated records in exactly the
merge order of the ids passed in — permuting either store's return list
(store-return order is unspecified) does not change the result — and an
id whose record is absent from the store map is silently skipped: the
display list is precisely the id list filtered through the record map,
in id-list order. -/
theorem C3_hydration_order (ids : List (String × SourceType))
    (docsRet legisRet docsRet' legisRet' : List StoredDoc)
    (hd : List.Perm docsRet' docsRet) (hl : List.Perm legisRet' legisRet)
    (hn : ((docsRet ++ legisRet).map (fun d => d.docId)).Nodup) :
    hydrate ids docsRet' legisRet' = hydrate ids docsRet legisRet ∧
    (hydrate ids docsRet legisRet).2 =
      ids.filterMap (fun p =>
        (mongoDocsMap (docsRet ++ legisRet) p.1).map (fun d => (hydrateItem p.2 d).2)) :=
  ⟨hydrate_perm hd hl hn ids, hydrateWalk_filterMap _ ids⟩

/-- Claim C3 witness: a two-record store returned in either order
hydrates a three-id list identically, and the id `"b"` with no record
is dropped. -/
theorem C3_witness :
    hydrate [("a", SourceType.document), ("b", SourceType.legislation),
        ("c", SourceType.document)]
      [⟨"c", some "TC", some "UC", some "tc"⟩, ⟨"a", some "TA", none, some "ta"⟩] []
    = hydrate [("a", SourceType.document), ("b", SourceType.legislation),
        ("c", SourceType.document)]
      [⟨"a", some "TA", none, some "ta"⟩, ⟨"c", some "TC", some "UC", some "tc"⟩] [] :=
  (C3_hydration_order
    [("a", SourceType.document), ("b", SourceType.legislation), ("c", SourceType.document)]
    [⟨"a", some "TA", none, some "ta"⟩, ⟨"c", some "TC", some "UC", some "tc"⟩] []
    [⟨"c", some "TC", some "UC", some "tc"⟩, ⟨"a", some "TA", none, some "ta"⟩] []
    (by decide) (by decide) (by decide)).1

/-- Claim C4: `sanitize_response` is idempotent — applying it twice to
any string gives the same result as applying it once. -/
theorem C4_sanitize_idempotent (s : String) :
    sanitize_response (sanitize_response s) = sanitize_response s := by
  unfold sanitize_response
  rw [show (⟨sanitizeChars s.data⟩ : String).data = sanitizeChars s.data from rfl,
    sanitizeChars_idem]

/-- Claim C5 counterexample: on the spec's own example the fence
markers are removed together with the content between them — the code's
comment says "Remove entire code blocks" — so the result is the empty
string, not `"code"`. -/
theorem C5_counterexample :
    sanitize_response "```code```" = "" ∧ sanitize_response "```code```" ≠ "code" := by
  decide

/-- Claim C5 (amended): for every string containing a paired
triple-backtick fenced block (with backtick-free text before the block
and inside it), `sanitize_response` removes the entire block — both
fence markers and the content inside the fences — so sanitizing the
string equals sanitizing the same string with the whole block deleted;
in particular `sanitize_response "```code```" = ""`. -/
theorem C5_amended (pre mid post : String)
    (h1 : noTickStr pre = true) (h2 : noTickStr mid = true) :
    sanitize_response (pre ++ "```" ++ mid ++ "```" ++ post) =
      sanitize_response (pre ++ post) := by
  have htick : ("```" : String).data = [tick, tick, tick] := by decide
  unfold sanitize_response sanitizeChars
  have hdata : (pre ++ "```" ++ mid ++ "```" ++ post).data
      = pre.data ++ tick :: tick :: tick :: (mid.data ++ tick :: tick :: tick :: post.data) := by
    rw [String.data_append, String.data_append, String.data_append, String.data_append,
      htick]
    simp only [List.append_assoc, List.cons_append, List.nil_append]
  have hdata2 : (pre ++ post).data = pre.data ++ post.data := by
    simp only [String.data_append]
  rw [hdata, hdata2, removeFences_fenced post.data h1 h2, removeFences_append_noTick h1]

/-- Claim C5 witness: a concrete fenced block is removed entirely. -/
theorem C5_witness :
    sanitize_response ("Use " ++ "```" ++ "print(1)" ++ "```" ++ " to see 1x") =
      sanitize_response ("Use " ++ " to see 1x") :=
  C5_amended "Use " "print(1)" " to see 1x" (by decide) (by decide)

/-- Claim C6: `sanitize_response` inserts a space between a run of
digits/commas and an immediately following letter, and between a run of
digits/commas and an immediately following parenthesis — its output
never leaves a digit/comma directly followed by an ASCII letter or a
parenthesis — and on the spec's examples `"1000dollars"` becomes
`"1000 dollars"` and `"100(a)"` becomes `"100 (a)"`. -/
theorem C6_spacing :
    (∀ s : String, noAdjB Char.isAlpha (sanitize_response s).data = true ∧
       noAdjB isParenChar (sanitize_response s).data = true) ∧
    sanitize_response "1000dollars" = "1000 dollars" ∧
    sanitize_response "100(a)" = "100 (a)" := by
  refine ⟨?_, by decide, by decide⟩
  intro s
  have h := sanitizeChars_fixed s.data
  exact ⟨h.2.1, h.2.2⟩

/-- Claim C7: whenever the completion call raises an exception — at any
point of the stream, after any prefix of chunks has arrived — the turn
ends with exactly the fixed apology string appended as the assistant's
transcript entry: never a partial response, never a turn without an
assistant entry. -/
theorem C7_completion_failure (messages : List ChatMessage) (prompt : String)
    (retrieved : String × List DisplayRec) (chunks : List String) :
    (processTurn messages prompt retrieved (StreamOutcome.failure chunks)).transcript =
      messages ++ [⟨Role.user, prompt⟩, ⟨Role.assistant, error_message⟩] ∧
    (processTurn messages prompt retrieved
        (StreamOutcome.failure chunks)).transcript.getLast?
      = some ⟨Role.assistant, error_message⟩ := by
  have h1 : (processTurn messages prompt retrieved (StreamOutcome.failure chunks)).transcript
      = (messages ++ [⟨Role.user, prompt⟩]) ++ [⟨Role.assistant, error_message⟩] := rfl
  constructor
  · rw [h1, List.append_assoc]
    rfl
  · rw [h1, List.getLast?_concat]

/-- Claim C8: if any step inside `retrieve_context` raises — the
embedding call, either vector-index query, or either document-store
lookup during hydration — the surrounding try/except recovers locally
and the function returns the empty-context pair `("", [])` instead of
propagating the exception.  The two store lookups are covered
individually: a raising docs lookup (whenever it is reached, i.e. its
fetch list is nonempty) forces the empty pair whatever the legislation
store would do, and a raising legislation lookup likewise forces the
empty pair whatever the docs store returned first. -/
theorem C8_retrieval_failure_recovery (q s : String) :
    (∀ (d l : Except String (List (String × Int)))
       (f g : List String → Except String (List StoredDoc)),
       retrieve_context q (Except.error s) d l f g = ("", [])) ∧
    (∀ (l : Except String (List (String × Int)))
       (f g : List String → Except String (List StoredDoc)),
       retrieve_context q (Except.ok ()) (Except.error s) l f g = ("", [])) ∧
    (∀ (docs : List (String × Int))
       (f g : List String → Except String (List StoredDoc)),
       retrieve_context q (Except.ok ()) (Except.ok docs) (Except.error s) f g
         = ("", [])) ∧
    (∀ (docs legis : List (String × Int))
       (g : List String → Except String (List StoredDoc)),
       ((resultIdPairs docs legis).filterMap
           (fun p => if p.2 = SourceType.document then some p.1 else none)) ≠ [] →
       retrieve_context q (Except.ok ()) (Except.ok docs) (Except.ok legis)
         (fun _ => Except.error s) g = ("", [])) ∧
    (∀ (docs legis : List (String × Int))
       (f : List String → Except String (List StoredDoc)),
       ((resultIdPairs docs legis).filterMap
           (fun p => if p.2 = SourceType.legislation then some p.1 else none)) ≠ [] →
       retrieve_context q (Except.ok ()) (Except.ok docs) (Except.ok legis)
         f (fun _ => Except.error s) = ("", [])) := by
  refine ⟨?_, ?_, ?_, ?_, ?_⟩
  · intro d l f g
    unfold retrieve_context retrieveContextT
    by_cases hq : q = ""
    · rw [if_pos hq]
    · rw [if_neg hq]
  · intro l f g
    unfold retrieve_context retrieveContextT
    by_cases hq : q = ""
    · rw [if_pos hq]
    · rw [if_neg hq]
  · intro docs f g
    unfold retrieve_context retrieveContextT
    by_cases hq : q = ""
    · rw [if_pos hq]
    · rw [if_neg hq]
  · intro docs legis g hdne
    have hune : resultIdPairs docs legis ≠ [] := by
      intro hc
      rw [hc] at hdne
      exact hdne rfl
    unfold retrieve_context retrieveContextT
    by_cases hq : q = ""
    · rw [if_pos hq]
    · rw [if_neg hq]
      dsimp only
      cases hu : (resultIdPairs docs legis).isEmpty with
      | true => exact absurd (List.isEmpty_iff.mp hu) hune
      | false =>
        cases hdi : ((resultIdPairs docs legis).filterMap
            (fun p => if p.2 = SourceType.document then some p.1 else none)).isEmpty with
        | true => exact absurd (List.isEmpty_iff.mp hdi) hdne
        | false => rfl
  · intro docs legis f hlne
    have hune : resultIdPairs docs legis ≠ [] := by
      intro hc
      rw [hc] at hlne
      exact hlne rfl
    unfold retrieve_context retrieveContextT
    by_cases hq : q = ""
    · rw [if_pos hq]
    · rw [if_neg hq]
      dsimp only
      cases hu : (resultIdPairs docs legis).isEmpty with
      | true => exact absurd (List.isEmpty_iff.mp hu) hune
      | false =>
        cases hle : ((resultIdPairs docs legis).filterMap
            (fun p => if p.2 = SourceType.legislation then some p.1 else none)).isEmpty with
        | true => exact absurd (List.isEmpty_iff.mp hle) hlne
        | false =>
          cases hdi : ((resultIdPairs docs legis).filterMap
              (fun p => if p.2 = SourceType.document then some p.1 else none)).isEmpty with
          | true => rfl
          | false =>
            cases hf : f ((resultIdPairs docs legis).filterMap
                (fun p => if p.2 = SourceType.document then some p.1 else none)) with
            | error e => rfl
            | ok docsRet => rfl

/-- Claim C8 witness: with both fetch lists nonempty and a docs store
that answers, a raising legislation lookup still yields the empty
pair. -/
theorem C8_witness :
    retrieve_context "gst" (Except.ok ()) (Except.ok [("a", 5)]) (Except.ok [("b", 4)])
      (fun _ => Except.ok []) (fun _ => Except.error "boom") = ("", []) :=
  (C8_retrieval_failure_recovery "gst" "boom").2.2.2.2 [("a", 5)] [("b", 4)]
    (fun _ => Except.ok []) (by decide)

/-- Claim C9: when the two vector queries return no matches, the merge
yields zero candidates and `retrieve_context` returns the empty pair
without error and without any store lookup; the turn then shows the
no-relevant-documents warning (the raw list is empty) and the
completion service is still invoked, with the empty context block. -/
theorem C9_no_context (prompt : String) (hq : prompt ≠ "")
    (messages : List ChatMessage) (outcome : StreamOutcome)
    (f g : List String → Except String (List StoredDoc)) :
    retrieveContextT prompt (Except.ok ()) (Except.ok []) (Except.ok []) f g =
      (("", []), [ServiceCall.embed, ServiceCall.queryDocs, ServiceCall.queryLegis]) ∧
    (processTurn messages prompt
        (retrieve_context prompt (Except.ok ()) (Except.ok []) (Except.ok []) f g)
        outcome).warningShown = true ∧
    (processTurn messages prompt
        (retrieve_context prompt (Except.ok ()) (Except.ok []) (Except.ok []) f g)
        outcome).apiUserContent = buildApiUserContent "" prompt := by
  have h1 : retrieveContextT prompt (Except.ok ()) (Except.ok []) (Except.ok []) f g =
      (("", []), [ServiceCall.embed, ServiceCall.queryDocs, ServiceCall.queryLegis]) := by
    unfold retrieveContextT
    rw [if_neg hq]
    rfl
  have h2 : retrieve_context prompt (Except.ok ()) (Except.ok []) (Except.ok []) f g
      = ("", []) := by
    unfold retrieve_context
    rw [h1]
  refine ⟨h1, ?_, ?_⟩
  · rw [h2]
    rfl
  · rw [h2]
    rfl

/-- Claim C9 witness: concrete no-match turn. -/
theorem C9_witness :
    retrieveContextT "tax" (Except.ok ()) (Except.ok []) (Except.ok [])
        (fun _ => Except.ok []) (fun _ => Except.ok []) =
      (("", []), [ServiceCall.embed, ServiceCall.queryDocs, ServiceCall.queryLegis]) :=
  (C9_no_context "tax" (by decide) [] (StreamOutcome.success [])
    (fun _ => Except.ok []) (fun _ => Except.ok [])).1

/-- Claim C10: for the empty (falsy) query string, `retrieve_context`
returns `("", [])` immediately, and its call log is empty — the
embedding service, both vector indexes and both document stores are
never invoked, whatever their outcomes would have been. -/
theorem C10_empty_query (embedRes : Except String Unit)
    (docsRes legisRes : Except String (List (String × Int)))
    (f g : List String → Except String (List StoredDoc)) :
    retrieveContextT "" embedRes docsRes legisRes f g = (("", []), []) := by
  rfl

end TaxAUmate
